import Mathlib

/- Shallow embedding of the string-processing and schedule-construction logic
of `src/zenml/integrations/aws/orchestrators/sagemaker_orchestrator.py` and of
the `input` helper property of `src/zenml/models/v2/core/step_run.py`.
Python strings are modelled as `List Char` (`String` for the status lookup),
Python exceptions as `Except`, and `None`-able values as `Option`. -/

/-! ## Generic models of the Python string operations used by the code -/

/-- Remainder of the text after the first occurrence of the pattern `pat`
(`none` when `pat` does not occur).  Shared building block for the models of
Python regex searching, `str.split` and `str.replace`. -/
def dropThroughFirst (pat : List Char) : List Char → Option (List Char)
  | [] => if pat <+: ([] : List Char) then some [] else none
  | c :: t =>
    if pat <+: (c :: t) then some ((c :: t).drop pat.length)
    else dropThroughFirst pat t

/-- Text before the first occurrence of `pat` (the whole text when `pat` does
not occur). -/
def takeBeforeFirst (pat : List Char) : List Char → List Char
  | [] => []
  | c :: t => if pat <+: (c :: t) then [] else c :: takeBeforeFirst pat t

/-- Text before the first occurrence of `pat`, or `none` when `pat` does not
occur. -/
def takeUntilFirst (pat : List Char) : List Char → Option (List Char)
  | [] => if pat <+: ([] : List Char) then some [] else none
  | c :: t =>
    if pat <+: (c :: t) then some []
    else (takeUntilFirst pat t).map (fun r => c :: r)

/-- One lazy-group step of Python `re`: the capture of `(.*?)` followed by the
literal `B`, starting at the current position.  `.` does not match a
newline. -/
def lazyCapture (B : List Char) : List Char → Option (List Char)
  | [] => if B <+: ([] : List Char) then some [] else none
  | c :: t =>
    if B <+: (c :: t) then some []
    else if c = '\n' then none
    else (lazyCapture B t).map (fun r => c :: r)

/-- Python `re.search` for a pattern `A(.*?)B` with literal `A` and `B`: try
every start position from the left; where `A` matches, the lazy group expands
minimally until `B` matches.  `.` does not match a newline. -/
def searchLazy (A B : List Char) : List Char → Option (List Char)
  | [] => if A <+: ([] : List Char) then lazyCapture B [] else none
  | c :: t =>
    if A <+: (c :: t) then
      match lazyCapture B ((c :: t).drop A.length) with
      | some cap => some cap
      | none => searchLazy A B t
    else searchLazy A B t

/-- Python `re.search` for a pattern `A(.*)` with a literal `A`: the group
greedily captures everything after the first occurrence of `A` up to the end
of the line (`.` does not match a newline). -/
def searchGreedy (A : List Char) : List Char → Option (List Char)
  | [] => if A <+: ([] : List Char) then some [] else none
  | c :: t =>
    if A <+: (c :: t) then
      some (((c :: t).drop A.length).takeWhile (fun d => d ≠ '\n'))
    else searchGreedy A t

/-- Python `str.split(sep)` for a non-empty separator, with fuel driving the
recursion; each found separator consumes at least one character, so
`s.length + 1` fuel always suffices. -/
def pySplitF (pat : List Char) : Nat → List Char → List (List Char)
  | 0, s => [s]
  | fuel + 1, s =>
    if pat = [] then [s]
    else
      match dropThroughFirst pat s with
      | none => [s]
      | some r => takeBeforeFirst pat s :: pySplitF pat fuel r

/-- Python `str.split(sep)` for a non-empty separator `pat`. -/
def pySplit (pat s : List Char) : List (List Char) :=
  pySplitF pat (s.length + 1) s

/-- Python `str.replace(pat, "")` for a non-empty `pat`: delete every
non-overlapping occurrence of `pat`, scanning from the left. -/
def pyReplaceEmptyF (pat : List Char) : Nat → List Char → List Char
  | 0, s => s
  | fuel + 1, s =>
    if pat = [] then s
    else
      match dropThroughFirst pat s with
      | none => s
      | some r => takeBeforeFirst pat s ++ pyReplaceEmptyF pat fuel r

/-- Python `str.replace(pat, "")` for a non-empty `pat`. -/
def pyReplaceEmpty (pat s : List Char) : List Char :=
  pyReplaceEmptyF pat (s.length + 1) s

/-- The ASCII characters Python `str.split()` (no argument) treats as
whitespace. -/
def isPySpace (c : Char) : Bool :=
  c = ' ' ∨ c = '\t' ∨ c = '\n' ∨ c = '\r' ∨ c = '\x0b' ∨ c = '\x0c'

/-- Python `str.split()` with no argument: split on whitespace runs and drop
empty fields. -/
def pySplitWhitespace (s : List Char) : List (List Char) :=
  (List.splitOnP isPySpace s).filter (fun t => !t.isEmpty)

/-- Decidable equality for `Except`, used to evaluate the embedded fallible
functions on concrete inputs. -/
instance {ε α : Type} [DecidableEq ε] [DecidableEq α] : DecidableEq (Except ε α) :=
  fun x y =>
    match x, y with
    | .error a, .error b =>
      if h : a = b then .isTrue (by rw [h]) else .isFalse (fun hc => h (Except.error.inj hc))
    | .ok a, .ok b =>
      if h : a = b then .isTrue (by rw [h]) else .isFalse (fun hc => h (Except.ok.inj hc))
    | .error _, .ok _ => .isFalse Except.noConfusion
    | .ok _, .error _ => .isFalse Except.noConfusion

/-! ## `sagemaker_orchestrator.py`: ARN parsing -/

/-- `dissect_schedule_arn` (sagemaker_orchestrator.py, lines 93-120): split the
ARN on `":"`, demand at least 6 parts with the 6th starting with
`"schedule/"`, and return the 4th part (the region) together with
`arn_parts[5].split("schedule/")[1]` (the name). -/
def dissect_schedule_arn (schedule_arn : List Char) : Except Unit (List Char × List Char) :=
  let arn_parts := pySplit [':'] schedule_arn
  if arn_parts.length < 6 ∨ ¬ ("schedule/".toList <+: arn_parts.getD 5 []) then
    .error ()
  else
    .ok (arn_parts.getD 3 [],
         (pySplit "schedule/".toList (arn_parts.getD 5 [])).getD 1 [])

/-- `dissect_pipeline_execution_arn` (sagemaker_orchestrator.py, lines
123-148): the three regex extractions `sagemaker:(.*?):`,
`pipeline/(.*?)/execution` and `execution/(.*)`. -/
def dissect_pipeline_execution_arn (pipeline_execution_arn : List Char) :
    Option (List Char) × Option (List Char) × Option (List Char) :=
  (searchLazy "sagemaker:".toList ":".toList pipeline_execution_arn,
   searchLazy "pipeline/".toList "/execution".toList pipeline_execution_arn,
   searchGreedy "execution/".toList pipeline_execution_arn)

/-! ## `sagemaker_orchestrator.py`: status mapping -/

/-- The subset of the ZenML `ExecutionStatus` enumeration produced by
`SagemakerOrchestrator.fetch_status` (the enumeration itself lives in
`zenml.enums`, outside the sources; only the three constructors the mapping
produces are needed). -/
inductive ExecutionStatus where
  | RUNNING
  | FAILED
  | COMPLETED
deriving DecidableEq

/-- The status mapping at the end of `SagemakerOrchestrator.fetch_status`
(lines 861-870): translate the remote `PipelineExecutionStatus` string into a
ZenML `ExecutionStatus`, raising `ValueError` on anything unknown. -/
def fetch_status_map (status : String) : Except Unit ExecutionStatus :=
  if status ∈ ["Executing", "Stopping"] then .ok .RUNNING
  else if status ∈ ["Stopped", "Failed"] then .ok .FAILED
  else if status ∈ ["Succeeded"] then .ok .COMPLETED
  else .error ()

/-! ## `sagemaker_orchestrator.py`: cron validation and schedule building -/

/-- `SagemakerOrchestrator._validate_cron_expression` (lines 1000-1026): strip
every occurrence of `"cron("` and then of `")"`, then demand exactly 6 or 7
whitespace-separated fields, returning the stripped expression. -/
def validate_cron_expression (cron_expression : List Char) : Except Unit (List Char) :=
  let cron_exp := pyReplaceEmpty ")".toList (pyReplaceEmpty "cron(".toList cron_expression)
  let parts := pySplitWhitespace cron_exp
  if ¬ (parts.length ∈ [6, 7]) then .error () else .ok cron_exp

/-- The fields of a ZenML deployment schedule that
`prepare_or_run_pipeline` reads.  Times are modelled as integer timestamps and
the interval as a whole number of seconds. -/
structure ZenSchedule where
  cron_expression : Option (List Char)
  interval_second : Option Nat
  start_time : Option Int
  run_once_start_time : Option Int

/-- The `sagemaker.workflow.triggers.PipelineSchedule` variants the
orchestrator constructs (the schedule name, which is the orchestrator run name
in all three branches, is omitted). -/
inductive PipelineScheduleSpec where
  | cron (cronExp : List Char) (startDate : Option Int)
  | rate (minutes : Nat) (startDate : Option Int)
  | oneTime (execTime : Int)
deriving DecidableEq

/-- Python truthiness of an optional string: both `None` and `""` are
falsy. -/
def truthyStr : Option (List Char) → Bool
  | none => false
  | some s => !s.isEmpty

/-- Python truthiness of an optional `timedelta`: both `None` and a zero
interval are falsy. -/
def truthyInterval : Option Nat → Bool
  | none => false
  | some n => n != 0

/-- The schedule-construction branch of
`SagemakerOrchestrator.prepare_or_run_pipeline` (lines 593-649): build the
`PipelineSchedule` and the `next_execution` timestamp from the deployment
schedule.  `to_utc_timezone` is the identity on the timestamp model and `now`
stands for `utc_now_tz_aware()`. -/
def build_pipeline_schedule (sched : ZenSchedule) (now : Int) :
    Except Unit (PipelineScheduleSpec × Option Int) :=
  let start_date := sched.start_time
  if truthyStr sched.cron_expression then
    match validate_cron_expression (sched.cron_expression.getD []) with
    | .error e => .error e
    | .ok cron_exp => .ok (.cron cron_exp start_date, none)
  else if truthyInterval sched.interval_second then
    let seconds := sched.interval_second.getD 0
    let minutes := max 1 (seconds / 60)
    .ok (.rate minutes start_date,
         some (sched.start_time.getD now + (seconds : Int)))
  else
    match sched.run_once_start_time.orElse (fun _ => sched.start_time) with
    | none => .error ()
    | some t => .ok (.oneTime t, some t)

/-! ## `sagemaker_orchestrator.py`: synchronous polling and run-name
sanitisation -/

def MAX_POLLING_ATTEMPTS : Nat := 100

def POLLING_DELAY : Nat := 30

/-- Outcome of the SDK call `execution.wait(...)`: it either returns or
raises a `WaiterError` timeout. -/
inductive WaitResult where
  | completed
  | waiterError
deriving DecidableEq

/-- Observable behaviour of the tail of `prepare_or_run_pipeline` for an
unscheduled run (lines 752-786): the list of `(delay, max_attempts)` argument
pairs passed to `execution.wait`, and whether a `RuntimeError` is raised.
`wait` is an oracle for what the SDK call does at those arguments. -/
def finish_unscheduled_run (synchronous : Bool) (wait : Nat → Nat → WaitResult) :
    List (Nat × Nat) × Bool :=
  if synchronous then
    ([(POLLING_DELAY, MAX_POLLING_ATTEMPTS)],
     match wait POLLING_DELAY MAX_POLLING_ATTEMPTS with
     | .completed => false
     | .waiterError => true)
  else ([], false)

/-- The character class `[a-zA-Z0-9\-]` of the run-name sanitisation in
`prepare_or_run_pipeline` (lines 302-309). -/
def isSageMakerNameChar (c : Char) : Bool :=
  ('a' ≤ c ∧ c ≤ 'z') ∨ ('A' ≤ c ∧ c ≤ 'Z') ∨ ('0' ≤ c ∧ c ≤ '9') ∨ c = '-'

/-- `re.sub(r"[^a-zA-Z0-9\-]", "-", name)`: replace every character outside
the class with a hyphen. -/
def sanitize_run_name : List Char → List Char
  | [] => []
  | c :: t => (if isSageMakerNameChar c then c else '-') :: sanitize_run_name t

/-! ## `step_run.py`: the `StepRunResponse.input` helper property -/

/-- The two Python exception kinds reachable from `StepRunResponse.input`. -/
inductive PyExc where
  | valueError
  | indexError
deriving DecidableEq

/-- `next(iter(d.values()))` on an (ordered) Python dict, modelled as an
association list: the first value. -/
def firstValue {α : Type} : List (List Char × List α) → List α
  | [] => []
  | kv :: _ => kv.2

/-- `StepRunResponse.input` (step_run.py, lines 304-323) on the step run's
`inputs` dict, modelled as an ordered association list from input names to
artifact lists.  Python's `[0]` on an empty list raises `IndexError`. -/
def step_run_input {α : Type} (inputs : List (List Char × List α)) : Except PyExc α :=
  if inputs.length = 0 then .error .valueError
  else if 1 < inputs.length ∨ (inputs.length = 1 ∧ 1 < (firstValue inputs).length) then
    .error .valueError
  else
    match firstValue inputs with
    | [] => .error .indexError
    | a :: _ => .ok a

/-! ## Environment-variable chunking (modelled from the spec)

`split_environment_variables` and the worker-side reconstruction live in
`zenml.utils.env_utils`, which is not part of the sources; only their call
sites (sagemaker_orchestrator.py, lines 313-321 and 338-349) are.  They are
modelled from the spec and from the call-site comments: a variable whose value
is longer than the size limit is split into multiple chunk variables and
re-constructed from them on the other side. -/

/-- Modelled from the spec: the SageMaker Processor environment-variable size
limit (`SAGEMAKER_PROCESSOR_STEP_ENV_VAR_SIZE_LIMIT`, imported by the
orchestrator from the AWS integration constants, outside the sources).  The
call-site comments fix it at 256 characters. -/
def SAGEMAKER_PROCESSOR_STEP_ENV_VAR_SIZE_LIMIT : Nat := 256

/-- Modelled from the spec: names in a chunked environment.  The concrete
chunk naming scheme of `zenml.utils.env_utils` is not part of the sources, so
chunk names are represented structurally as a base name plus a chunk index. -/
inductive EnvName where
  | plain (k : List Char)
  | chunk (k : List Char) (i : Nat)
deriving DecidableEq

/-- Base variable name of a (possibly chunked) environment entry. -/
def EnvName.base : EnvName → List Char
  | .plain k => k
  | .chunk k _ => k

/-- Cut a value into consecutive chunks of at most `limit` characters
(fuelled; each step consumes at least one character, so `s.length` fuel
suffices). -/
def chunkValueF (limit : Nat) : Nat → List Char → List (List Char)
  | 0, _ => []
  | _ + 1, [] => []
  | fuel + 1, c :: t =>
    (c :: t.take (limit - 1)) :: chunkValueF limit fuel (t.drop (limit - 1))

/-- Cut a value into consecutive chunks of at most `limit` characters. -/
def chunkValue (limit : Nat) (s : List Char) : List (List Char) :=
  chunkValueF limit s.length s

/-- Number the chunks of one variable, starting at index `i`. -/
def chunkEntries (k : List Char) (i : Nat) : List (List Char) → List (EnvName × List Char)
  | [] => []
  | v :: vs => (EnvName.chunk k i, v) :: chunkEntries k (i + 1) vs

/-- Modelled from the spec: how `split_environment_variables` treats one
variable.  A value longer than `limit` is replaced by its numbered chunks;
shorter variables pass through unchanged. -/
def split1 (limit : Nat) (kv : List Char × List Char) : List (EnvName × List Char) :=
  if limit < kv.2.length then chunkEntries kv.1 0 (chunkValue limit kv.2)
  else [(EnvName.plain kv.1, kv.2)]

/-- Modelled from the spec: `split_environment_variables` from
`zenml.utils.env_utils` (not part of the sources), acting on an environment
given as an ordered association list. -/
def split_environment_variables (limit : Nat) :
    List (List Char × List Char) → List (EnvName × List Char)
  | [] => []
  | kv :: rest => split1 limit kv ++ split_environment_variables limit rest

/-- Modelled from the spec: merge one chunk value into the reconstruction of
the remaining entries.  A chunk is prepended to the chunk-rebuilt entry of the
same base variable when one follows immediately, and starts a new entry
otherwise. -/
def reconStep (k v : List Char) :
    List (List Char × Bool × List Char) → List (List Char × Bool × List Char)
  | (k2, true, v2) :: out =>
    if k = k2 then (k, true, v ++ v2) :: out
    else (k, true, v) :: (k2, true, v2) :: out
  | out => (k, true, v) :: out

/-- Modelled from the spec: first pass of the worker-side reconstruction.
Adjacent chunks of the same base variable are concatenated; the boolean
records whether the entry was rebuilt from chunks. -/
def reconAux : List (EnvName × List Char) → List (List Char × Bool × List Char)
  | [] => []
  | (.plain k, v) :: rest => (k, false, v) :: reconAux rest
  | (.chunk k _, v) :: rest => reconStep k v (reconAux rest)

/-- Modelled from the spec: the worker-side reconstruction of a chunked
environment. -/
def reconstruct_environment_variables (l : List (EnvName × List Char)) :
    List (List Char × List Char) :=
  (reconAux l).map (fun e => (e.1, e.2.2))

/-- Concatenation of a list of chunks. -/
def joinChunks : List (List Char) → List Char
  | [] => []
  | v :: vs => v ++ joinChunks vs

/-! ## Claims C1, C5, C6, C7, C9, C10, C8 -/

/-- Claim C1: `fetch_status` maps the remote status string by a finite lookup:
`"Executing"` and `"Stopping"` to `RUNNING`, `"Stopped"` and `"Failed"` to
`FAILED`, `"Succeeded"` to `COMPLETED`, and raises `ValueError` on every other
string. -/
theorem C1_fetch_status_lookup (status : String) :
    fetch_status_map status =
      if status = "Executing" ∨ status = "Stopping" then .ok .RUNNING
      else if status = "Stopped" ∨ status = "Failed" then .ok .FAILED
      else if status = "Succeeded" then .ok .COMPLETED
      else .error () := by
  unfold fetch_status_map
  by_cases h1 : status = "Executing" ∨ status = "Stopping"
  · have m1 : status ∈ ["Executing", "Stopping"] := by
      rcases h1 with h | h <;> simp [h]
    rw [if_pos m1, if_pos h1]
  · have m1 : status ∉ ["Executing", "Stopping"] := by simpa using h1
    rw [if_neg m1, if_neg h1]
    by_cases h2 : status = "Stopped" ∨ status = "Failed"
    · have m2 : status ∈ ["Stopped", "Failed"] := by
        rcases h2 with h | h <;> simp [h]
      rw [if_pos m2, if_pos h2]
    · have m2 : status ∉ ["Stopped", "Failed"] := by simpa using h2
      rw [if_neg m2, if_neg h2]
      by_cases h3 : status = "Succeeded"
      · have m3 : status ∈ ["Succeeded"] := by simp [h3]
        rw [if_pos m3, if_pos h3]
      · have m3 : status ∉ ["Succeeded"] := by simpa using h3
        rw [if_neg m3, if_neg h3]

/-- Claim C5: for a schedule with an interval and no cron expression, the rate
is `max 1 (interval div 60)` minutes (so intervals below one minute become a
one-minute rate) and the recorded next execution is the start time (or the
current time when no start time is set) plus the interval. -/
theorem C5_interval_schedule_rate (sched : ZenSchedule) (now : Int) (n : Nat)
    (hc : sched.cron_expression = none) (hi : sched.interval_second = some n)
    (hn : 0 < n) :
    build_pipeline_schedule sched now =
      .ok (.rate (max 1 (n / 60)) sched.start_time,
           some (sched.start_time.getD now + (n : Int))) ∧
    (n < 60 → max 1 (n / 60) = 1) := by
  constructor
  · unfold build_pipeline_schedule
    rw [hc, hi]
    simp [truthyStr, truthyInterval, Nat.pos_iff_ne_zero.mp hn]
  · intro h60
    rw [Nat.div_eq_of_lt h60]
    decide

/-- Claim C6: `_validate_cron_expression` removes the substrings `"cron("` and
`")"`, raises `ValueError` exactly when the result does not have 6 or 7
whitespace-separated fields, and otherwise returns the stripped expression. -/
theorem C6_validate_cron_expression (s : List Char) :
    validate_cron_expression s =
      (let cron_exp := pyReplaceEmpty ")".toList (pyReplaceEmpty "cron(".toList s)
       if (pySplitWhitespace cron_exp).length = 6 ∨ (pySplitWhitespace cron_exp).length = 7
       then .ok cron_exp else .error ()) := by
  unfold validate_cron_expression
  by_cases h : (pySplitWhitespace (pyReplaceEmpty ")".toList (pyReplaceEmpty "cron(".toList s))).length = 6 ∨
      (pySplitWhitespace (pyReplaceEmpty ")".toList (pyReplaceEmpty "cron(".toList s))).length = 7
  · have hm : (pySplitWhitespace (pyReplaceEmpty ")".toList (pyReplaceEmpty "cron(".toList s))).length ∈ [6, 7] := by
      rcases h with h | h <;> rw [h] <;> decide
    rw [if_neg (not_not_intro hm), if_pos h]
  · have m : ¬ ((pySplitWhitespace (pyReplaceEmpty ")".toList (pyReplaceEmpty "cron(".toList s))).length ∈ [6, 7]) := by
      simpa using h
    rw [if_pos m, if_neg h]

/-- Claim C7: for a schedule with neither a cron expression nor an interval,
the orchestrator raises `ValueError` exactly when both `run_once_start_time`
and `start_time` are unset, and otherwise creates a one-time schedule at
`run_once_start_time` when it is set and at `start_time` otherwise. -/
theorem C7_one_time_schedule (sched : ZenSchedule) (now : Int)
    (hc : sched.cron_expression = none) (hi : sched.interval_second = none) :
    (build_pipeline_schedule sched now = .error () ↔
       (sched.run_once_start_time = none ∧ sched.start_time = none)) ∧
    (∀ t, sched.run_once_start_time = some t →
       build_pipeline_schedule sched now = .ok (.oneTime t, some t)) ∧
    (∀ t, sched.run_once_start_time = none → sched.start_time = some t →
       build_pipeline_schedule sched now = .ok (.oneTime t, some t)) := by
  unfold build_pipeline_schedule
  rw [hc, hi]
  cases hr : sched.run_once_start_time <;> cases hs : sched.start_time <;>
    simp [truthyStr, truthyInterval, Option.orElse, hr, hs]

/-- Claim C9: for an unscheduled synchronous run the orchestrator calls the
SDK's `wait` exactly once with delay 30 and at most 100 attempts and turns a
`WaiterError` into a `RuntimeError`; without the synchronous setting `wait` is
never called and no error is raised. -/
theorem C9_synchronous_wait (synchronous : Bool) (wait : Nat → Nat → WaitResult) :
    (finish_unscheduled_run synchronous wait).1 =
      (if synchronous then [(30, 100)] else []) ∧
    ((finish_unscheduled_run synchronous wait).2 = true ↔
      (synchronous = true ∧ wait 30 100 = .waiterError)) := by
  cases synchronous <;> cases hw : wait 30 100 <;>
    simp [finish_unscheduled_run, POLLING_DELAY, MAX_POLLING_ATTEMPTS, hw]

/-- Claim C10: the sanitised orchestrator run name replaces every character
that is not an ASCII letter, digit or hyphen with a hyphen, hence consists
only of such characters and keeps the length of the unsanitised name. -/
theorem C10_sanitize_run_name (s : List Char) :
    sanitize_run_name s = s.map (fun c => if isSageMakerNameChar c then c else '-') ∧
    (sanitize_run_name s).all isSageMakerNameChar = true ∧
    (sanitize_run_name s).length = s.length := by
  induction s with
  | nil => exact ⟨rfl, rfl, rfl⟩
  | cons c t ih =>
    refine ⟨?_, ?_, ?_⟩
    · simp [sanitize_run_name, ih.1]
    · simp only [sanitize_run_name, List.all_cons, ih.2.1, Bool.and_true]
      by_cases h : isSageMakerNameChar c
      · simp [h]
      · simp [h]
        rfl
    · simp [sanitize_run_name, ih.2.2]

/-- Counterexample to claim C8: a step run whose `inputs` hold a single input
name with an empty artifact list makes `StepRunResponse.input` fail with an
`IndexError` rather than the claimed `ValueError`, so `ValueError` is not the
only failure mode on shapes other than one name with one artifact. -/
theorem C8_step_run_input_counterexample :
    ¬ (∀ (inputs : List (List Char × List Nat)),
        (¬ ∃ k a, inputs = [(k, [a])]) → step_run_input inputs = .error .valueError) := by
  intro h
  have h1 := h [(['A'], [])] (by rintro ⟨k, a, hk⟩; simp at hk)
  rw [show step_run_input [((['A'] : List Char), ([] : List Nat))] = .error .indexError from rfl] at h1
  exact PyExc.noConfusion (Except.error.inj h1)

/-- Claim C8 (amended): `StepRunResponse.input` returns the single artifact
when the inputs hold exactly one name with exactly one artifact, raises
`ValueError` when the inputs are empty, when there is more than one input
name, or when the single name holds more than one artifact, and raises
`IndexError` (not `ValueError`) when the single name holds no artifact. -/
theorem C8_step_run_input_characterization {α : Type} (inputs : List (List Char × List α)) :
    (inputs = [] → step_run_input inputs = .error .valueError) ∧
    (∀ k, inputs = [(k, [])] → step_run_input inputs = .error .indexError) ∧
    (∀ k a, inputs = [(k, [a])] → step_run_input inputs = .ok a) ∧
    (∀ k a b t, inputs = [(k, a :: b :: t)] → step_run_input inputs = .error .valueError) ∧
    (∀ kv1 kv2 rest, inputs = kv1 :: kv2 :: rest → step_run_input inputs = .error .valueError) := by
  refine ⟨fun h => by rw [h]; rfl, fun k h => by rw [h]; rfl, fun k a h => by rw [h]; rfl,
          fun k a b t h => ?_, fun kv1 kv2 rest h => ?_⟩
  · rw [h]
    unfold step_run_input
    rw [if_neg (by simp),
        if_pos (Or.inr ⟨rfl, show (1:Nat) < (a :: b :: t).length by
          simp only [List.length_cons]; omega⟩)]
  · rw [h]
    unfold step_run_input
    rw [if_neg (by simp),
        if_pos (Or.inl (show (1:Nat) < (kv1 :: kv2 :: rest).length by
          simp only [List.length_cons]; omega))]

/-- Witness for claim C8 (amended): on a concrete single-input single-artifact
step run, the characterization yields the artifact itself. -/
theorem C8_step_run_input_characterization_witness :
    ([((['x'] : List Char), ([5] : List Nat))] : List (List Char × List Nat)) =
      [((['x'] : List Char), ([5] : List Nat))] ∧
    step_run_input [((['x'] : List Char), ([5] : List Nat))] = .ok 5 :=
  ⟨rfl, (C8_step_run_input_characterization _).2.2.1 ['x'] 5 rfl⟩

/-- Witness for claim C5: a 45-second interval with a set start time becomes a
1-minute rate whose next execution is the start time plus 45 seconds. -/
theorem C5_interval_schedule_rate_witness :
    (⟨none, some 45, some 1000, none⟩ : ZenSchedule).cron_expression = none ∧
    (⟨none, some 45, some 1000, none⟩ : ZenSchedule).interval_second = some 45 ∧
    0 < 45 ∧
    (build_pipeline_schedule ⟨none, some 45, some 1000, none⟩ 0 =
       .ok (.rate (max 1 (45 / 60)) (some 1000), some ((1000 : Int) + (45 : Nat))) ∧
     (45 < 60 → max 1 (45 / 60) = 1)) :=
  ⟨rfl, rfl, by decide, C5_interval_schedule_rate ⟨none, some 45, some 1000, none⟩ 0 45 rfl rfl (by decide)⟩

/-- Witness for claim C7: with only `run_once_start_time` set, a one-time
schedule at that time is produced. -/
theorem C7_one_time_schedule_witness :
    (⟨none, none, none, some 77⟩ : ZenSchedule).cron_expression = none ∧
    (⟨none, none, none, some 77⟩ : ZenSchedule).interval_second = none ∧
    (⟨none, none, none, some 77⟩ : ZenSchedule).run_once_start_time = some 77 ∧
    build_pipeline_schedule ⟨none, none, none, some 77⟩ 0 = .ok (.oneTime 77, some 77) :=
  ⟨rfl, rfl, rfl,
   (C7_one_time_schedule ⟨none, none, none, some 77⟩ 0 rfl rfl).2.1 77 rfl⟩

/-! ## Claim C2: machinery relating the regex models to plain text extraction -/

/-- Auxiliary: `l.drop n` is a suffix of `(c :: l).drop n`. -/
theorem drop_cons_suffix {α : Type} (c : α) (l : List α) (n : Nat) :
    l.drop n <:+ (c :: l).drop n := by
  cases n with
  | zero => exact List.suffix_cons c l
  | succ m =>
    rw [List.drop_succ_cons]
    have h := List.drop_suffix 1 (l.drop m)
    rw [List.drop_drop] at h
    simpa using h

/-- Auxiliary: a successful `dropThroughFirst pat s` is a suffix of
`s.drop pat.length`. -/
theorem dropThroughFirst_suffix (pat : List Char) :
    ∀ s r, dropThroughFirst pat s = some r → r <:+ s.drop pat.length := by
  intro s
  induction s with
  | nil =>
    intro r h
    simp only [dropThroughFirst] at h
    by_cases hp : pat <+: ([] : List Char)
    · rw [if_pos hp] at h
      cases h
      simp
    · rw [if_neg hp] at h
      exact Option.noConfusion h
  | cons c t ih =>
    intro r h
    simp only [dropThroughFirst] at h
    by_cases hp : pat <+: (c :: t)
    · rw [if_pos hp] at h
      cases h
      exact List.suffix_refl _
    · rw [if_neg hp] at h
      exact (ih r h).trans (drop_cons_suffix c t pat.length)

/-- Auxiliary: `takeUntilFirst pat s` fails exactly when no suffix of `s`
starts with `pat`. -/
theorem takeUntilFirst_eq_none_iff (pat : List Char) :
    ∀ s, takeUntilFirst pat s = none ↔ ∀ r, r <:+ s → ¬ pat <+: r := by
  intro s
  induction s with
  | nil =>
    simp only [takeUntilFirst]
    by_cases hp : pat <+: ([] : List Char)
    · rw [if_pos hp]
      constructor
      · intro h; exact Option.noConfusion h
      · intro h; exact absurd hp (h [] (List.suffix_refl _))
    · rw [if_neg hp]
      constructor
      · intro _ r hr hpr
        rw [List.suffix_nil.mp hr] at hpr
        exact hp hpr
      · intro _; rfl
  | cons c t ih =>
    simp only [takeUntilFirst]
    by_cases hp : pat <+: (c :: t)
    · rw [if_pos hp]
      constructor
      · intro h; exact Option.noConfusion h
      · intro h; exact absurd hp (h (c :: t) (List.suffix_refl _))
    · rw [if_neg hp]
      constructor
      · intro h r hr hpr
        rcases List.suffix_cons_iff.mp hr with h1 | h1
        · rw [h1] at hpr; exact hp hpr
        · exact (ih.mp (Option.map_eq_none'.mp h)) r h1 hpr
      · intro h
        rw [Option.map_eq_none']
        exact ih.mpr (fun r hr => h r (List.suffix_cons_iff.mpr (Or.inr hr)))

/-- Auxiliary: failure of `takeUntilFirst` transfers to suffixes. -/
theorem takeUntilFirst_none_of_suffix (pat : List Char) {s r : List Char}
    (h : takeUntilFirst pat s = none) (hr : r <:+ s) : takeUntilFirst pat r = none := by
  rw [takeUntilFirst_eq_none_iff] at h ⊢
  exact fun q hq => h q (hq.trans hr)

/-- Auxiliary: without newlines the lazy regex capture agrees with
`takeUntilFirst`. -/
theorem lazyCapture_eq_takeUntilFirst (B : List Char) :
    ∀ s, '\n' ∉ s → lazyCapture B s = takeUntilFirst B s := by
  intro s
  induction s with
  | nil => intro _; rfl
  | cons c t ih =>
    intro h
    have hc : ¬ (c = '\n') := fun hc => h (by rw [hc]; exact List.mem_cons_self _ _)
    have ht : '\n' ∉ t := fun hm => h (List.mem_cons_of_mem c hm)
    simp only [lazyCapture, takeUntilFirst]
    by_cases hB : B <+: (c :: t)
    · rw [if_pos hB, if_pos hB]
    · rw [if_neg hB, if_neg hB, if_neg hc, ih ht]

/-- Auxiliary: without newlines `searchLazy A B` finds exactly the text
between the first occurrence of `A` and the next occurrence of `B` after
it. -/
theorem searchLazy_eq (A B : List Char) :
    ∀ s, '\n' ∉ s →
      searchLazy A B s = (dropThroughFirst A s).bind (takeUntilFirst B) := by
  intro s
  induction s with
  | nil =>
    intro _
    simp only [searchLazy, dropThroughFirst]
    by_cases hA : A <+: ([] : List Char)
    · rw [if_pos hA, if_pos hA]
      exact lazyCapture_eq_takeUntilFirst B [] (by simp)
    · rw [if_neg hA, if_neg hA]
      rfl
  | cons c t ih =>
    intro h
    have ht : '\n' ∉ t := fun hm => h (List.mem_cons_of_mem c hm)
    have hdrop : '\n' ∉ (c :: t).drop A.length := fun hm => h (List.mem_of_mem_drop hm)
    simp only [searchLazy, dropThroughFirst]
    by_cases hA : A <+: (c :: t)
    · rw [if_pos hA, if_pos hA, lazyCapture_eq_takeUntilFirst B _ hdrop]
      cases hcap : takeUntilFirst B ((c :: t).drop A.length) with
      | some cap => simp [hcap]
      | none =>
        rw [ih ht]
        cases hd : dropThroughFirst A t with
        | none => simp [hd, hcap]
        | some r =>
          have hr : r <:+ (c :: t).drop A.length :=
            (dropThroughFirst_suffix A t r hd).trans (drop_cons_suffix c t A.length)
          simp [hd, hcap, takeUntilFirst_none_of_suffix B hcap hr]
    · rw [if_neg hA, if_neg hA]
      exact ih ht

/-- Auxiliary: without newlines `searchGreedy A` captures exactly the text
after the first occurrence of `A`. -/
theorem searchGreedy_eq (A : List Char) :
    ∀ s, '\n' ∉ s → searchGreedy A s = dropThroughFirst A s := by
  intro s
  induction s with
  | nil => intro _; rfl
  | cons c t ih =>
    intro h
    simp only [searchGreedy, dropThroughFirst]
    by_cases hA : A <+: (c :: t)
    · rw [if_pos hA, if_pos hA]
      have hall : ∀ x ∈ (c :: t).drop A.length, (fun d => decide (d ≠ '\n')) x = true := by
        intro x hx
        simp only [decide_eq_true_eq]
        intro hxn
        rw [hxn] at hx
        exact h (List.mem_of_mem_drop hx)
      rw [List.takeWhile_eq_self_iff.mpr hall]
    · rw [if_neg hA, if_neg hA]
      exact ih (fun hm => h (List.mem_cons_of_mem c hm))

/-- Counterexample to claim C2: on an input containing a newline the regex dot
does not match, so the execution id component is the text after `"execution/"`
only up to the newline, not the whole remainder, and similarly the region
component can be `None` although its delimiters occur. -/
theorem C2_dissect_pipeline_execution_arn_counterexample :
    (dissect_pipeline_execution_arn "execution/a\nb".toList).2.2 = some "a".toList ∧
    dropThroughFirst "execution/".toList "execution/a\nb".toList = some "a\nb".toList ∧
    (dissect_pipeline_execution_arn "sagemaker:a\nb:".toList).1 = none ∧
    (dropThroughFirst "sagemaker:".toList "sagemaker:a\nb:".toList).bind
        (takeUntilFirst ":".toList) = some "a\nb".toList := by
  refine ⟨?_, ?_, ?_, ?_⟩ <;> rfl

/-- Claim C2 (amended): `dissect_pipeline_execution_arn` is total, and on
every input that contains no newline character it returns exactly the text
between the first `"sagemaker:"` and the next `":"` after it, the text
between the first `"pipeline/"` and the next `"/execution"` after it, and the
text after the first `"execution/"`, each component being `None` exactly when
its delimiters do not occur in that order. -/
theorem C2_dissect_pipeline_execution_arn_newline_free (s : List Char)
    (h : '\n' ∉ s) :
    dissect_pipeline_execution_arn s =
      ((dropThroughFirst "sagemaker:".toList s).bind (takeUntilFirst ":".toList),
       (dropThroughFirst "pipeline/".toList s).bind (takeUntilFirst "/execution".toList),
       dropThroughFirst "execution/".toList s) := by
  unfold dissect_pipeline_execution_arn
  rw [searchLazy_eq _ _ s h, searchLazy_eq _ _ s h, searchGreedy_eq _ s h]

/-- Witness for claim C2 (amended): a well-formed pipeline execution ARN
contains no newline and is dissected into its region, pipeline name and
execution id. -/
theorem C2_dissect_pipeline_execution_arn_newline_free_witness :
    '\n' ∉ "arn:aws:sagemaker:us-east-1:123:pipeline/p/execution/e".toList ∧
    dissect_pipeline_execution_arn "arn:aws:sagemaker:us-east-1:123:pipeline/p/execution/e".toList =
      ((dropThroughFirst "sagemaker:".toList "arn:aws:sagemaker:us-east-1:123:pipeline/p/execution/e".toList).bind
         (takeUntilFirst ":".toList),
       (dropThroughFirst "pipeline/".toList "arn:aws:sagemaker:us-east-1:123:pipeline/p/execution/e".toList).bind
         (takeUntilFirst "/execution".toList),
       dropThroughFirst "execution/".toList "arn:aws:sagemaker:us-east-1:123:pipeline/p/execution/e".toList) :=
  ⟨by decide,
   C2_dissect_pipeline_execution_arn_newline_free
     "arn:aws:sagemaker:us-east-1:123:pipeline/p/execution/e".toList (by decide)⟩

/-! ## Claim C3: machinery for `str.split` -/

/-- Auxiliary: for a non-empty pattern, a successful `dropThroughFirst`
shortens the text. -/
theorem dropThroughFirst_length_lt (pat : List Char) (hpat : pat ≠ []) :
    ∀ s r, dropThroughFirst pat s = some r → r.length < s.length := by
  intro s
  induction s with
  | nil =>
    intro r h
    simp only [dropThroughFirst] at h
    by_cases hp : pat <+: ([] : List Char)
    · exact absurd (List.prefix_nil.mp hp) hpat
    · rw [if_neg hp] at h
      exact Option.noConfusion h
  | cons c t ih =>
    intro r h
    simp only [dropThroughFirst] at h
    by_cases hp : pat <+: (c :: t)
    · rw [if_pos hp] at h
      cases h
      rw [List.length_drop]
      have : 0 < pat.length := List.length_pos.mpr hpat
      simp only [List.length_cons]
      omega
    · rw [if_neg hp] at h
      exact Nat.lt_trans (ih r h) (by simp)

/-- Auxiliary: `pySplitF` does not depend on the fuel once the fuel exceeds
the length of the text. -/
theorem pySplitF_congr (pat : List Char) (hpat : pat ≠ []) :
    ∀ f1 f2 s, s.length < f1 → s.length < f2 → pySplitF pat f1 s = pySplitF pat f2 s := by
  intro f1
  induction f1 with
  | zero => intro f2 s h1 _; exact absurd h1 (Nat.not_lt_zero _)
  | succ f ih =>
    intro f2 s h1 h2
    cases f2 with
    | zero => exact absurd h2 (Nat.not_lt_zero _)
    | succ g =>
      simp only [pySplitF, if_neg hpat]
      cases hd : dropThroughFirst pat s with
      | none => rfl
      | some r =>
        have hr := dropThroughFirst_length_lt pat hpat s r hd
        show takeBeforeFirst pat s :: pySplitF pat f r =
          takeBeforeFirst pat s :: pySplitF pat g r
        rw [ih g r (by omega) (by omega)]

/-- Auxiliary: the defining one-step equation of `pySplit` for a non-empty
separator. -/
theorem pySplit_eq (pat : List Char) (hpat : pat ≠ []) (s : List Char) :
    pySplit pat s =
      match dropThroughFirst pat s with
      | none => [s]
      | some r => takeBeforeFirst pat s :: pySplit pat r := by
  have key : pySplitF pat (s.length + 1) s =
      match dropThroughFirst pat s with
      | none => [s]
      | some r => takeBeforeFirst pat s :: pySplitF pat (r.length + 1) r := by
    conv_lhs => rw [pySplitF]
    rw [if_neg hpat]
    cases hd : dropThroughFirst pat s with
    | none => rfl
    | some r =>
      have hr := dropThroughFirst_length_lt pat hpat s r hd
      show takeBeforeFirst pat s :: pySplitF pat s.length r =
        takeBeforeFirst pat s :: pySplitF pat (r.length + 1) r
      rw [pySplitF_congr pat hpat s.length (r.length + 1) r (by omega) (by omega)]
  exact key

/-- Auxiliary: when `pat` does not occur, `takeBeforeFirst` is the whole
text. -/
theorem takeBeforeFirst_of_none (pat : List Char) :
    ∀ s, dropThroughFirst pat s = none → takeBeforeFirst pat s = s := by
  intro s
  induction s with
  | nil => intro _; rfl
  | cons c t ih =>
    intro h
    simp only [dropThroughFirst] at h
    by_cases hp : pat <+: (c :: t)
    · rw [if_pos hp] at h
      exact Option.noConfusion h
    · rw [if_neg hp] at h
      simp only [takeBeforeFirst, if_neg hp]
      rw [ih h]

/-- Auxiliary: when `pat` is a prefix of the text, `dropThroughFirst` drops
exactly that prefix. -/
theorem dropThroughFirst_of_prefix (pat s : List Char) (hpat : pat ≠ [])
    (h : pat <+: s) : dropThroughFirst pat s = some (s.drop pat.length) := by
  cases s with
  | nil => exact absurd (List.prefix_nil.mp h) hpat
  | cons c t => simp only [dropThroughFirst, if_pos h]

/-- Auxiliary: the second field of Python `split` is the text between the end
of the first occurrence of the separator and the next occurrence after it. -/
theorem pySplit_getD_one (pat : List Char) (hpat : pat ≠ []) (s : List Char)
    (h : pat <+: s) :
    (pySplit pat s).getD 1 [] = takeBeforeFirst pat (s.drop pat.length) := by
  rw [pySplit_eq pat hpat s, dropThroughFirst_of_prefix pat s hpat h]
  show (pySplit pat (s.drop pat.length)).getD 0 [] = _
  rw [pySplit_eq pat hpat (s.drop pat.length)]
  cases hd : dropThroughFirst pat (s.drop pat.length) with
  | none => exact (takeBeforeFirst_of_none pat _ hd).symm
  | some r => rfl

/-- Counterexample to claim C3: when the 6th colon-separated part contains
`"schedule/"` twice, `split("schedule/")[1]` is the text between the two
occurrences (here empty), not the remainder of the part after the first
`"schedule/"`. -/
theorem C3_dissect_schedule_arn_counterexample :
    dissect_schedule_arn "arn:aws:scheduler:us-east-1:123:schedule/schedule/x".toList =
      .ok ("us-east-1".toList, []) ∧
    dropThroughFirst "schedule/".toList
        ((pySplit [':'] "arn:aws:scheduler:us-east-1:123:schedule/schedule/x".toList).getD 5 []) =
      some "schedule/x".toList := by
  exact ⟨rfl, rfl⟩

/-- Claim C3 (amended): `dissect_schedule_arn` raises `ValueError` exactly
when the input split on `":"` has fewer than 6 parts or its 6th part does not
start with `"schedule/"`; otherwise it returns the 4th part as the region and,
as the name, the segment of the 6th part between the end of the leading
`"schedule/"` and the next occurrence of `"schedule/"` (the whole remainder
when `"schedule/"` does not occur again). -/
theorem C3_dissect_schedule_arn_characterization (s : List Char) :
    dissect_schedule_arn s =
      (let parts := pySplit [':'] s
       if parts.length < 6 ∨ ¬ ("schedule/".toList <+: parts.getD 5 []) then
         .error ()
       else
         .ok (parts.getD 3 [],
              takeBeforeFirst "schedule/".toList
                ((parts.getD 5 []).drop "schedule/".toList.length))) := by
  unfold dissect_schedule_arn
  by_cases h : (pySplit [':'] s).length < 6 ∨ ¬ ("schedule/".toList <+: (pySplit [':'] s).getD 5 [])
  · rw [if_pos h, if_pos h]
  · rw [if_neg h, if_neg h]
    have hpre : "schedule/".toList <+: (pySplit [':'] s).getD 5 [] := by
      rcases not_or.mp h with ⟨_, h2⟩
      exact not_not.mp h2
    rw [pySplit_getD_one "schedule/".toList (by decide) _ hpre]

/-! ## Claim C4: machinery for the environment-variable chunking -/

/-- Auxiliary: `chunkValueF` does not depend on the fuel once the fuel covers
the length of the value. -/
theorem chunkValueF_congr (limit : Nat) :
    ∀ f1 f2 s, s.length ≤ f1 → s.length ≤ f2 →
      chunkValueF limit f1 s = chunkValueF limit f2 s := by
  intro f1
  induction f1 with
  | zero =>
    intro f2 s h1 _
    have hs : s = [] := List.length_eq_zero.mp (Nat.le_zero.mp h1)
    subst hs
    cases f2 <;> rfl
  | succ f ih =>
    intro f2 s h1 h2
    cases s with
    | nil => cases f2 <;> rfl
    | cons c t =>
      cases f2 with
      | zero => simp at h2
      | succ g =>
        have hb1 : (t.drop (limit - 1)).length ≤ f := by
          rw [List.length_drop]
          simp only [List.length_cons] at h1
          omega
        have hb2 : (t.drop (limit - 1)).length ≤ g := by
          rw [List.length_drop]
          simp only [List.length_cons] at h2
          omega
        simp only [chunkValueF]
        rw [ih g (t.drop (limit - 1)) hb1 hb2]

/-- Auxiliary: the defining one-step equation of `chunkValue` on a non-empty
value. -/
theorem chunkValue_cons (limit : Nat) (c : Char) (t : List Char) :
    chunkValue limit (c :: t) =
      (c :: t.take (limit - 1)) :: chunkValue limit (t.drop (limit - 1)) := by
  unfold chunkValue
  simp only [List.length_cons, chunkValueF]
  rw [chunkValueF_congr limit t.length (t.drop (limit - 1)).length (t.drop (limit - 1))
        (by rw [List.length_drop]; omega) (Nat.le_refl _)]

/-- Auxiliary: concatenating the chunks of a value restores the value. -/
theorem joinChunks_chunkValueF (limit : Nat) :
    ∀ fuel s, s.length ≤ fuel → joinChunks (chunkValueF limit fuel s) = s := by
  intro fuel
  induction fuel with
  | zero =>
    intro s h
    have hs : s = [] := List.length_eq_zero.mp (Nat.le_zero.mp h)
    subst hs
    rfl
  | succ f ih =>
    intro s h
    cases s with
    | nil => rfl
    | cons c t =>
      simp only [chunkValueF, joinChunks]
      rw [ih (t.drop (limit - 1))
            (by rw [List.length_drop]; simp only [List.length_cons] at h; omega)]
      simp only [List.cons_append]
      rw [List.take_append_drop]

/-- Auxiliary: concatenating the chunks of a value restores the value. -/
theorem joinChunks_chunkValue (limit : Nat) (s : List Char) :
    joinChunks (chunkValue limit s) = s :=
  joinChunks_chunkValueF limit s.length s (Nat.le_refl _)

/-- Auxiliary: for a positive limit every chunk fits within the limit. -/
theorem chunkValueF_length_le (limit : Nat) (hl : 0 < limit) :
    ∀ fuel s v, v ∈ chunkValueF limit fuel s → v.length ≤ limit := by
  intro fuel
  induction fuel with
  | zero => intro s v hv; exact absurd hv (List.not_mem_nil _)
  | succ f ih =>
    intro s v hv
    cases s with
    | nil => exact absurd hv (List.not_mem_nil _)
    | cons c t =>
      simp only [chunkValueF] at hv
      rcases List.mem_cons.mp hv with h | h
      · subst h
        simp only [List.length_cons, List.length_take]
        omega
      · exact ih (t.drop (limit - 1)) v h

/-- Auxiliary: a non-empty value has at least one chunk. -/
theorem chunkValue_ne_nil (limit : Nat) (c : Char) (t : List Char) :
    chunkValue limit (c :: t) ≠ [] := by
  rw [chunkValue_cons]
  exact List.cons_ne_nil _ _

/-- Auxiliary: every chunk entry carries the base name and one of the
chunks. -/
theorem chunkEntries_mem (k : List Char) :
    ∀ cs i x, x ∈ chunkEntries k i cs → x.1.base = k ∧ x.2 ∈ cs := by
  intro cs
  induction cs with
  | nil => intro i x hx; exact absurd hx (List.not_mem_nil _)
  | cons v vs ih =>
    intro i x hx
    simp only [chunkEntries] at hx
    rcases List.mem_cons.mp hx with h | h
    · subst h
      exact ⟨rfl, List.mem_cons_self _ _⟩
    · rcases ih (i + 1) x h with ⟨h1, h2⟩
      exact ⟨h1, List.mem_cons_of_mem _ h2⟩

/-- Auxiliary: reconstructing a non-empty run of chunks of one variable in
front of other entries concatenates exactly that run, provided the following
entries do not start with a chunk-rebuilt entry of the same base name. -/
theorem reconAux_chunkEntries (k : List Char) (rest : List (EnvName × List Char))
    (hguard : ∀ k2 v2 out, reconAux rest = (k2, true, v2) :: out → k2 ≠ k) :
    ∀ cs, cs ≠ [] → ∀ i,
      reconAux (chunkEntries k i cs ++ rest) =
        (k, true, joinChunks cs) :: reconAux rest := by
  intro cs
  induction cs with
  | nil => intro h; exact absurd rfl h
  | cons v vs ih =>
    intro _ i
    cases vs with
    | nil =>
      rw [show chunkEntries k i [v] ++ rest = (EnvName.chunk k i, v) :: rest from rfl]
      simp only [reconAux]
      cases hrest : reconAux rest with
      | nil => simp [reconStep, joinChunks]
      | cons e out =>
        rcases e with ⟨k2, b2, v2⟩
        cases b2 with
        | false => simp [reconStep, joinChunks]
        | true =>
          have hne : ¬ (k = k2) := fun he => hguard k2 v2 out hrest he.symm
          simp only [reconStep, if_neg hne]
          simp [joinChunks]
    | cons v2 vs' =>
      rw [show reconAux (chunkEntries k i (v :: v2 :: vs') ++ rest) =
            reconStep k v (reconAux (chunkEntries k (i + 1) (v2 :: vs') ++ rest)) from rfl]
      rw [ih (List.cons_ne_nil _ _) (i + 1)]
      simp [reconStep, joinChunks]

/-- Auxiliary: every entry produced by the reconstruction pass carries a base
name occurring among the input entries. -/
theorem reconAux_base_mem :
    ∀ (l : List (EnvName × List Char)) x, x ∈ reconAux l →
      x.1 ∈ l.map (fun e => e.1.base) := by
  intro l
  induction l with
  | nil => intro x hx; exact absurd hx (List.not_mem_nil _)
  | cons e rest ih =>
    rcases e with ⟨n, v⟩
    cases n with
    | plain k =>
      intro x hx
      simp only [reconAux] at hx
      rcases List.mem_cons.mp hx with h | h
      · subst h
        exact List.mem_cons_self _ _
      · exact List.mem_cons_of_mem _ (ih x h)
    | chunk k i =>
      intro x hx
      simp only [reconAux] at hx
      cases hrest : reconAux rest with
      | nil =>
        rw [hrest] at hx
        rcases List.mem_cons.mp hx with h | h
        · subst h
          exact List.mem_cons_self _ _
        · exact absurd h (List.not_mem_nil _)
      | cons e2 out =>
        rcases e2 with ⟨k2, b2, v2⟩
        rw [hrest] at hx
        cases b2 with
        | false =>
          rcases List.mem_cons.mp hx with h | h
          · subst h
            exact List.mem_cons_self _ _
          · refine List.mem_cons_of_mem _ (ih x ?_)
            rw [hrest]
            exact h
        | true =>
          by_cases hk : k = k2
          · rw [show reconStep k v ((k2, true, v2) :: out) =
                  (k, true, v ++ v2) :: out from by
                simp only [reconStep, if_pos hk]] at hx
            rcases List.mem_cons.mp hx with h | h
            · subst h
              exact List.mem_cons_self _ _
            · refine List.mem_cons_of_mem _ (ih x ?_)
              rw [hrest]
              exact List.mem_cons_of_mem _ h
          · rw [show reconStep k v ((k2, true, v2) :: out) =
                  (k, true, v) :: (k2, true, v2) :: out from by
                simp only [reconStep, if_neg hk]] at hx
            rcases List.mem_cons.mp hx with h | h
            · subst h
              exact List.mem_cons_self _ _
            · refine List.mem_cons_of_mem _ (ih x ?_)
              rw [hrest]
              exact h

/-- Auxiliary: every entry `split1` produces keeps the variable's base
name. -/
theorem split1_base (limit : Nat) (kv : List Char × List Char) :
    ∀ x, x ∈ split1 limit kv → x.1.base = kv.1 := by
  intro x hx
  simp only [split1] at hx
  by_cases h : limit < kv.2.length
  · rw [if_pos h] at hx
    exact (chunkEntries_mem kv.1 (chunkValue limit kv.2) 0 x hx).1
  · rw [if_neg h] at hx
    rcases List.mem_cons.mp hx with h1 | h1
    · subst h1
      rfl
    · exact absurd h1 (List.not_mem_nil _)

/-- Auxiliary: base names of a split environment are variable names of the
original environment. -/
theorem split_env_base_mem (limit : Nat) :
    ∀ env x, x ∈ split_environment_variables limit env →
      x.1.base ∈ env.map Prod.fst := by
  intro env
  induction env with
  | nil => intro x hx; exact absurd hx (List.not_mem_nil _)
  | cons kv rest ih =>
    intro x hx
    simp only [split_environment_variables] at hx
    rcases List.mem_append.mp hx with h | h
    · rw [split1_base limit kv x h]
      simp
    · simp only [List.map_cons]
      exact List.mem_cons_of_mem _ (ih x h)

/-- Auxiliary: for a positive limit every value in the split environment fits
within the limit. -/
theorem split_env_value_le (limit : Nat) (hl : 0 < limit) :
    ∀ env x, x ∈ split_environment_variables limit env → x.2.length ≤ limit := by
  intro env
  induction env with
  | nil => intro x hx; exact absurd hx (List.not_mem_nil _)
  | cons kv rest ih =>
    intro x hx
    simp only [split_environment_variables] at hx
    rcases List.mem_append.mp hx with h | h
    · simp only [split1] at h
      by_cases hc : limit < kv.2.length
      · rw [if_pos hc] at h
        exact chunkValueF_length_le limit hl kv.2.length kv.2 x.2
          (chunkEntries_mem kv.1 (chunkValue limit kv.2) 0 x h).2
      · rw [if_neg hc] at h
        rcases List.mem_cons.mp h with h1 | h1
        · subst h1
          exact Nat.le_of_not_lt hc
        · exact absurd h1 (List.not_mem_nil _)
    · exact ih x h

/-- Auxiliary: for distinct variable names, reconstructing a split
environment restores the original environment. -/
theorem reconstruct_split (limit : Nat) :
    ∀ env : List (List Char × List Char), (env.map Prod.fst).Nodup →
      reconstruct_environment_variables (split_environment_variables limit env) = env := by
  intro env
  induction env with
  | nil => intro _; rfl
  | cons kv rest ih =>
    intro hnd
    rcases kv with ⟨k, v⟩
    simp only [List.map_cons, List.nodup_cons] at hnd
    rcases hnd with ⟨hk, hnd⟩
    have hguard : ∀ k2 v2 out,
        reconAux (split_environment_variables limit rest) = (k2, true, v2) :: out →
          k2 ≠ k := by
      intro k2 v2 out heq he
      subst he
      have hmem : (k2, true, v2) ∈ reconAux (split_environment_variables limit rest) := by
        rw [heq]
        exact List.mem_cons_self _ _
      rcases List.mem_map.mp
          (reconAux_base_mem (split_environment_variables limit rest) (k2, true, v2) hmem)
        with ⟨e, he2, he3⟩
      have hb := split_env_base_mem limit rest e he2
      rw [he3] at hb
      exact hk hb
    have ih' : (reconAux (split_environment_variables limit rest)).map
        (fun e => (e.1, e.2.2)) = rest := ih hnd
    simp only [split_environment_variables]
    by_cases hc : limit < v.length
    · rw [show split1 limit (k, v) = chunkEntries k 0 (chunkValue limit v) from by
          simp only [split1, if_pos hc]]
      cases v with
      | nil => exact absurd hc (Nat.not_lt_zero limit)
      | cons c t =>
        show (reconAux (chunkEntries k 0 (chunkValue limit (c :: t)) ++
              split_environment_variables limit rest)).map (fun e => (e.1, e.2.2)) =
          (k, c :: t) :: rest
        rw [reconAux_chunkEntries k (split_environment_variables limit rest) hguard
              (chunkValue limit (c :: t)) (chunkValue_ne_nil limit c t) 0,
            joinChunks_chunkValue]
        simp only [List.map_cons]
        rw [ih']
    · rw [show split1 limit (k, v) = [(EnvName.plain k, v)] from by
          simp only [split1, if_neg hc]]
      show (reconAux ((EnvName.plain k, v) :: split_environment_variables limit rest)).map
          (fun e => (e.1, e.2.2)) = (k, v) :: rest
      rw [show reconAux ((EnvName.plain k, v) :: split_environment_variables limit rest) =
            (k, false, v) :: reconAux (split_environment_variables limit rest) from rfl]
      simp only [List.map_cons]
      rw [ih']

/-- Claim C4: for every environment with distinct variable names, splitting it
under `SAGEMAKER_PROCESSOR_STEP_ENV_VAR_SIZE_LIMIT` produces only values that
fit within the size limit, and the worker-side reconstruction of the split
environment yields exactly the original environment. -/
theorem C4_split_env_roundtrip (env : List (List Char × List Char))
    (h : (env.map Prod.fst).Nodup) :
    (∀ x ∈ split_environment_variables SAGEMAKER_PROCESSOR_STEP_ENV_VAR_SIZE_LIMIT env,
        x.2.length ≤ SAGEMAKER_PROCESSOR_STEP_ENV_VAR_SIZE_LIMIT) ∧
    reconstruct_environment_variables
        (split_environment_variables SAGEMAKER_PROCESSOR_STEP_ENV_VAR_SIZE_LIMIT env) =
      env :=
  ⟨fun x hx =>
     split_env_value_le SAGEMAKER_PROCESSOR_STEP_ENV_VAR_SIZE_LIMIT (by decide) env x hx,
   reconstruct_split SAGEMAKER_PROCESSOR_STEP_ENV_VAR_SIZE_LIMIT env h⟩

/-- Witness for claim C4: an environment with one variable of 300 characters
is split into within-limit chunks and reconstructed to itself. -/
theorem C4_split_env_roundtrip_witness :
    (([("A".toList, List.replicate 300 'x')].map Prod.fst).Nodup) ∧
    ((∀ x ∈ split_environment_variables SAGEMAKER_PROCESSOR_STEP_ENV_VAR_SIZE_LIMIT
          [("A".toList, List.replicate 300 'x')],
        x.2.length ≤ SAGEMAKER_PROCESSOR_STEP_ENV_VAR_SIZE_LIMIT) ∧
     reconstruct_environment_variables
         (split_environment_variables SAGEMAKER_PROCESSOR_STEP_ENV_VAR_SIZE_LIMIT
           [("A".toList, List.replicate 300 'x')]) =
       [("A".toList, List.replicate 300 'x')]) :=
  ⟨by decide, C4_split_env_roundtrip [("A".toList, List.replicate 300 'x')] (by decide)⟩
